import Mathlib

/-!
# SourceCred: shallow embedding and verification

A shallow embedding of the SourceCred repository fragment:
* `TimelineExplorer` (the calling UI layer, `src/unnamed/part_000`),
* the `sourcecred init` CLI command (`src/src/cli/init.js`),
* `parseArgs` of `src/src/plugins/github/bin/fetchAndPrintGithubRepo.js`,
and, where the deciding code is not part of the provided sources, models
built from the specification (weight resolution, interval partitioning,
the PageRank pipeline).

Machine numbers are modelled as exact rationals (`ℚ`); JavaScript strings
as `String`; mutable object references as indices into an explicit `Store`.
-/

/-! ## Data model: addresses, weights, parameters -/

/-- A structured node/edge address: an ordered sequence of string parts. -/
abbrev Address : Type := List String

/-- An edge weight: independently configurable forward/backward multipliers. -/
structure EdgeWeight where
  forwards : ℚ
  backwards : ℚ
deriving DecidableEq

/-- The node-weight table: mapping from address prefixes to multipliers. -/
abbrev NodeWeightsT : Type := List (Address × ℚ)

/-- The edge-weight table: mapping from address prefixes to forward/backward pairs. -/
abbrev EdgeWeightsT : Type := List (Address × EdgeWeight)

/-- The weights structure `{nodeWeights, edgeWeights}` passed around by the UI
and consumed by the cred computation. -/
structure WeightsT where
  nodeWeights : NodeWeightsT
  edgeWeights : EdgeWeightsT
deriving DecidableEq

/-- `{alpha, intervalDecay}`: the two user-facing computation parameters. -/
structure TimelineCredParameters where
  alpha : ℚ
  intervalDecay : ℚ
deriving DecidableEq

/-! ## Weight resolution (longest-prefix match)

Modelled from the spec: `resolveNodeWeight` / `resolveEdgeWeight` live in
`src/core/weights.js`, which is not among the provided sources.  The spec:
"perform longest-prefix match against the weight table and return the
default (1, or `{1,1}`) on no match — this must never fail". -/

/-- Modelled from the spec: the best (longest) entry of the table whose
prefix matches the given address, if any. -/
def bestMatch {β : Type} (addr : Address) : List (Address × β) → Option (Address × β)
  | [] => none
  | e :: rest =>
    let b := bestMatch addr rest
    if e.1.isPrefixOf addr then
      match b with
      | none => some e
      | some e' => if e'.1.length < e.1.length then some e else some e'
    else b

/-- Modelled from the spec: `resolveNodeWeight(address)` — the multiplier of
the longest registered prefix matching `address`, defaulting to `1`. -/
def resolveNodeWeight (tbl : NodeWeightsT) (addr : Address) : ℚ :=
  match bestMatch addr tbl with
  | some e => e.2
  | none => 1

/-- Modelled from the spec: `resolveEdgeWeight(address)` — the pair of the
longest registered prefix matching `address`, defaulting to `{1,1}`. -/
def resolveEdgeWeight (tbl : EdgeWeightsT) (addr : Address) : EdgeWeight :=
  match bestMatch addr tbl with
  | some e => e.2
  | none => ⟨1, 1⟩

lemma bestMatch_cons {β : Type} (addr : Address) (e : Address × β) (rest : List (Address × β)) :
    bestMatch addr (e :: rest) =
      if e.1.isPrefixOf addr then
        match bestMatch addr rest with
        | none => some e
        | some e' => if e'.1.length < e.1.length then some e else some e'
      else bestMatch addr rest := rfl

lemma bestMatch_eq_none_iff {β : Type} (addr : Address) (tbl : List (Address × β)) :
    bestMatch addr tbl = none ↔ ∀ e ∈ tbl, ¬ e.1 <+: addr := by
  induction tbl with
  | nil => simp [bestMatch]
  | cons a rest ih =>
    rw [bestMatch_cons]
    by_cases ha : a.1.isPrefixOf addr = true
    · rw [if_pos ha]
      have hapre : a.1 <+: addr := List.isPrefixOf_iff_prefix.mp ha
      constructor
      · intro h
        exfalso
        cases hb : bestMatch addr rest with
        | none => rw [hb] at h; exact Option.noConfusion h
        | some e' =>
          rw [hb] at h
          dsimp only at h
          by_cases hl : e'.1.length < a.1.length
          · rw [if_pos hl] at h; exact Option.noConfusion h
          · rw [if_neg hl] at h; exact Option.noConfusion h
      · intro hall
        exact absurd hapre (hall a (List.mem_cons_self a rest))
    · rw [if_neg ha, ih]
      have hanot : ¬ a.1 <+: addr := fun hc => ha (List.isPrefixOf_iff_prefix.mpr hc)
      constructor
      · intro hall e he
        rcases List.mem_cons.mp he with rfl | he'
        · exact hanot
        · exact hall e he'
      · intro hall e he
        exact hall e (List.mem_cons_of_mem a he)

lemma bestMatch_spec {β : Type} {addr : Address} {tbl : List (Address × β)} {e : Address × β}
    (h : bestMatch addr tbl = some e) :
    e ∈ tbl ∧ e.1 <+: addr ∧ ∀ e' ∈ tbl, e'.1 <+: addr → e'.1.length ≤ e.1.length := by
  induction tbl generalizing e with
  | nil => exact absurd h (by simp [bestMatch])
  | cons a rest ih =>
    rw [bestMatch_cons] at h
    by_cases ha : a.1.isPrefixOf addr = true
    · rw [if_pos ha] at h
      have hapre : a.1 <+: addr := List.isPrefixOf_iff_prefix.mp ha
      cases hb : bestMatch addr rest with
      | none =>
        rw [hb] at h
        dsimp only at h
        have hnone := (bestMatch_eq_none_iff addr rest).mp hb
        cases h
        refine ⟨List.mem_cons_self a rest, hapre, ?_⟩
        intro e' he' hp'
        rcases List.mem_cons.mp he' with rfl | he''
        · exact le_refl _
        · exact absurd hp' (hnone e' he'')
      | some b =>
        rw [hb] at h
        dsimp only at h
        obtain ⟨hbm, hbpre, hbmax⟩ := ih hb
        by_cases hl : b.1.length < a.1.length
        · rw [if_pos hl] at h
          cases h
          refine ⟨List.mem_cons_self a rest, hapre, ?_⟩
          intro e' he' hp'
          rcases List.mem_cons.mp he' with rfl | he''
          · exact le_refl _
          · exact le_trans (hbmax e' he'' hp') (le_of_lt hl)
        · rw [if_neg hl] at h
          cases h
          refine ⟨List.mem_cons_of_mem a hbm, hbpre, ?_⟩
          intro e' he' hp'
          rcases List.mem_cons.mp he' with rfl | he''
          · exact Nat.le_of_not_lt hl
          · exact hbmax e' he'' hp'
    · rw [if_neg ha] at h
      have hanot : ¬ a.1 <+: addr := fun hc => ha (List.isPrefixOf_iff_prefix.mpr hc)
      obtain ⟨hm, hpre, hmax⟩ := ih h
      refine ⟨List.mem_cons_of_mem a hm, hpre, ?_⟩
      intro e' he' hp'
      rcases List.mem_cons.mp he' with rfl | he''
      · exact absurd hp' hanot
      · exact hmax e' he'' hp'

lemma mem_nodup_keys_eq {β : Type} {l : List (Address × β)} (hnd : (l.map Prod.fst).Nodup)
    {p : Address} {a b : β} (ha : (p, a) ∈ l) (hb : (p, b) ∈ l) : a = b := by
  induction l with
  | nil => cases ha
  | cons e rest ih =>
    rw [List.map_cons, List.nodup_cons] at hnd
    rcases List.mem_cons.mp ha with ha' | ha'
    · rcases List.mem_cons.mp hb with hb' | hb'
      · rw [← ha'] at hb'
        exact ((Prod.mk.injEq p b p a).mp hb').2.symm
      · exfalso
        have hp : p ∈ List.map Prod.fst rest := List.mem_map_of_mem Prod.fst hb'
        have he1 : e.1 = p := by rw [← ha']
        exact hnd.1 (he1 ▸ hp)
    · rcases List.mem_cons.mp hb with hb' | hb'
      · exfalso
        have hp : p ∈ List.map Prod.fst rest := List.mem_map_of_mem Prod.fst ha'
        have he1 : e.1 = p := by rw [← hb']
        exact hnd.1 (he1 ▸ hp)
      · exact ih hnd.2 ha' hb'

lemma bestMatch_eq_of_longest {β : Type} {addr p : Address} {w : β} {tbl : List (Address × β)}
    (hnd : (tbl.map Prod.fst).Nodup) (hm : (p, w) ∈ tbl) (hp : p <+: addr)
    (hmax : ∀ e ∈ tbl, e.1 <+: addr → e.1.length ≤ p.length) :
    bestMatch addr tbl = some (p, w) := by
  cases hb : bestMatch addr tbl with
  | none => exact absurd hp ((bestMatch_eq_none_iff addr tbl).mp hb (p, w) hm)
  | some e =>
    obtain ⟨e1, e2⟩ := e
    obtain ⟨hem, hepre, hemax⟩ := bestMatch_spec hb
    have hepre' : e1 <+: addr := hepre
    have hlen : e1.length = p.length :=
      le_antisymm (hmax (e1, e2) hem hepre') (hemax (p, w) hm hp)
    have hfst : e1 = p := by
      have h1 : e1 = addr.take e1.length := List.prefix_iff_eq_take.mp hepre'
      have h2 : p = addr.take p.length := List.prefix_iff_eq_take.mp hp
      rw [h1, h2, hlen]
    subst hfst
    have hsnd : e2 = w := mem_nodup_keys_eq hnd hem hm
    subst hsnd
    rfl

/-! ## parseArgs (`fetchAndPrintGithubRepo.js`) -/

/-- The record `{owner, name, githubToken}` returned by `parseArgs`;
`githubToken` is `undefined` (here `none`) when only two arguments are given. -/
structure ParsedArgs where
  owner : String
  name : String
  githubToken : Option String
deriving DecidableEq

/-- `parseArgs` of `fetchAndPrintGithubRepo.js`: destructures
`[owner, name, githubToken, ...rest]` from `process.argv.slice(2)` and
fails (throws a usage error) when fewer than two arguments are given or
`rest` is non-empty. -/
def parseArgs (argv : List String) : Except Unit ParsedArgs :=
  if argv.length < 2 then .error ()
  else
    let owner := argv.headD ""
    let name := (argv.drop 1).headD ""
    let githubToken := (argv.drop 2).head?
    let rest := argv.drop 3
    if rest.length > 0 then .error ()
    else .ok ⟨owner, name, githubToken⟩

/-- A node of the weighted graph: an address and an optional timestamp. -/
structure GraphNode where
  address : Address
  timestampMs : Option ℤ
deriving DecidableEq

/-- An edge: its own address, a source address and a destination address. -/
structure GraphEdge where
  address : Address
  src : Address
  dst : Address
deriving DecidableEq

/-- A weighted graph: node and edge lists (deterministic insertion order)
paired with a weight table. -/
structure WeightedGraphT where
  nodes : List GraphNode
  edges : List GraphEdge
  weights : WeightsT
deriving DecidableEq

/-! ## TimelineExplorer (`src/unnamed/part_000`) -/

/-- `deepEqual` (`lodash.isequal`): deep structural equality of in-memory values. -/
def deepEqual {α : Type} [DecidableEq α] (x y : α) : Bool := decide (x = y)

/-- The data of a `TimelineCred` result as seen by the explorer: its score
table, the weights of its weighted graph (`weightedGraph().weights`) and the
parameters used to produce it (`params()`). -/
structure TimelineCred where
  credScores : List (Address × ℚ)
  graph : WeightedGraphT
  credParams : TimelineCredParameters
deriving DecidableEq

/-- The React component state of `TimelineExplorer`. -/
structure ExplorerState where
  timelineCred : TimelineCred
  weights : WeightsT
  alpha : ℚ
  intervalDecay : ℚ
  loading : Bool
  showWeightConfig : Bool
  selectedNodeTypePrefix : Option Address

/-- The `params()` method: `{alpha, intervalDecay}` assembled from the state. -/
def ExplorerState.explorerParams (s : ExplorerState) : TimelineCredParameters :=
  ⟨s.alpha, s.intervalDecay⟩

/-- The `weights()` method: `Weights.copy(this.state.weights)`.  In the
by-value model a copy is structurally identical to its source; `deepEqual`
cannot distinguish a copy from the original. -/
def ExplorerState.weightsMethod (s : ExplorerState) : WeightsT := s.weights

/-- `paramsUpToDate` as computed in `renderConfigurationRow`:
`deepEqual(this.params(), tc.params()) && deepEqual(this.weights(), tc.weightedGraph().weights)`. -/
def paramsUpToDate (s : ExplorerState) : Bool :=
  deepEqual s.explorerParams s.timelineCred.credParams &&
  deepEqual s.weightsMethod s.timelineCred.graph.weights

/-- The `disabled` attribute of the "re-compute cred" button:
`this.state.loading || paramsUpToDate`. -/
def analyzeButtonDisabled (s : ExplorerState) : Bool :=
  s.loading || paramsUpToDate s

/-- C1: the re-compute action is enabled exactly when no computation is in
flight and the candidate params or weights differ (by deep structural
equality) from those of the held `TimelineCred`; in particular when both are
deep-equal, or a computation is in flight, the action is disabled. -/
theorem recompute_gating (s : ExplorerState) :
    (analyzeButtonDisabled s = false ↔
      s.loading = false ∧
        (s.explorerParams ≠ s.timelineCred.credParams ∨
          s.weightsMethod ≠ s.timelineCred.graph.weights)) ∧
    ((deepEqual s.explorerParams s.timelineCred.credParams = true ∧
        deepEqual s.weightsMethod s.timelineCred.graph.weights = true) ∨ s.loading = true →
      analyzeButtonDisabled s = true) := by
  constructor
  · unfold analyzeButtonDisabled paramsUpToDate deepEqual
    cases hl : s.loading
    · simp
      tauto
    · simp
  · intro h
    unfold analyzeButtonDisabled paramsUpToDate
    rcases h with ⟨h1, h2⟩ | h1
    · rw [h1, h2]
      simp
    · rw [h1]
      simp

/-- Concrete instantiation of `recompute_gating`: a state whose candidate
weights/params are deep-equal to the held result's has the button disabled. -/
theorem recompute_gating_witness :
    analyzeButtonDisabled
      { timelineCred :=
          { credScores := [], graph := ⟨[], [], ⟨[], []⟩⟩, credParams := ⟨1/2, 1/2⟩ },
        weights := ⟨[], []⟩, alpha := 1/2, intervalDecay := 1/2,
        loading := false, showWeightConfig := false,
        selectedNodeTypePrefix := none } = true :=
  (recompute_gating _).2
    (Or.inl ⟨by simp [deepEqual, ExplorerState.explorerParams],
             by simp [deepEqual, ExplorerState.weightsMethod]⟩)

/-! ## C5 and C10 theorems -/

/-- C5: `resolveNodeWeight` / `resolveEdgeWeight` return the multiplier
registered for the longest prefix of the address present in the table, and
return the default `1` (respectively `{1,1}`) when no registered prefix
matches; both are total functions (they never fail). -/
theorem resolveWeight_longest_match (ntbl : NodeWeightsT) (etbl : EdgeWeightsT)
    (addr : Address) :
    ((∀ e ∈ ntbl, ¬ e.1 <+: addr) → resolveNodeWeight ntbl addr = 1) ∧
    ((∀ e ∈ etbl, ¬ e.1 <+: addr) → resolveEdgeWeight etbl addr = ⟨1, 1⟩) ∧
    (∀ p w, (ntbl.map Prod.fst).Nodup → (p, w) ∈ ntbl → p <+: addr →
      (∀ e ∈ ntbl, e.1 <+: addr → e.1.length ≤ p.length) →
      resolveNodeWeight ntbl addr = w) ∧
    (∀ p w, (etbl.map Prod.fst).Nodup → (p, w) ∈ etbl → p <+: addr →
      (∀ e ∈ etbl, e.1 <+: addr → e.1.length ≤ p.length) →
      resolveEdgeWeight etbl addr = w) := by
  refine ⟨?_, ?_, ?_, ?_⟩
  · intro h
    unfold resolveNodeWeight
    rw [(bestMatch_eq_none_iff addr ntbl).mpr h]
  · intro h
    unfold resolveEdgeWeight
    rw [(bestMatch_eq_none_iff addr etbl).mpr h]
  · intro p w hnd hm hp hmax
    unfold resolveNodeWeight
    rw [bestMatch_eq_of_longest hnd hm hp hmax]
  · intro p w hnd hm hp hmax
    unfold resolveEdgeWeight
    rw [bestMatch_eq_of_longest hnd hm hp hmax]

/-- Concrete instantiation of `resolveWeight_longest_match`: with both
`["github"]` and `["github","issue"]` registered, the longer prefix wins for
`["github","issue","1"]`; an empty edge table resolves to the default. -/
theorem resolveWeight_longest_match_witness :
    resolveNodeWeight [(["github"], 2), (["github", "issue"], 3)]
        ["github", "issue", "1"] = 3 ∧
    resolveEdgeWeight [] ["x"] = ⟨1, 1⟩ :=
  ⟨(resolveWeight_longest_match
        [(["github"], 2), (["github", "issue"], 3)] [] ["github", "issue", "1"]).2.2.1
      ["github", "issue"] 3 (by decide) (by decide) (by decide) (by decide),
   (resolveWeight_longest_match [] [] ["x"]).2.1 (by decide)⟩

/-- C10: `parseArgs` throws its usage error exactly when fewer than two or
more than three positional arguments are supplied; with two or three
arguments it returns `{owner, name, githubToken}` taken in order, with
`githubToken` absent when only two arguments are given. -/
theorem parseArgs_usage (argv : List String) :
    (parseArgs argv = .error () ↔ (argv.length < 2 ∨ 3 < argv.length)) ∧
    (∀ a b : String, parseArgs [a, b] = .ok ⟨a, b, none⟩) ∧
    (∀ a b c : String, parseArgs [a, b, c] = .ok ⟨a, b, some c⟩) := by
  refine ⟨?_, fun a b => rfl, fun a b c => rfl⟩
  unfold parseArgs
  by_cases h2 : argv.length < 2
  · rw [if_pos h2]
    simp only [true_iff]
    exact Or.inl h2
  · rw [if_neg h2]
    dsimp only
    by_cases hgt : 3 < argv.length
    · have hr : 0 < (argv.drop 3).length := by
        rw [List.length_drop]
        omega
      rw [if_pos hr]
      simp only [true_iff]
      exact Or.inr hgt
    · have hr : ¬ 0 < (argv.drop 3).length := by
        rw [List.length_drop]
        omega
      rw [if_neg hr]
      constructor
      · intro h
        exact absurd h (by simp)
      · intro h
        omega

/-! ## `sourcecred init` (`src/src/cli/init.js`) -/

/-- A GitHub repository id `OWNER/NAME`. -/
structure RepoId where
  owner : String
  name : String
deriving DecidableEq

/-- A SourceCred project as assembled by `createProject` in `generateProject`. -/
structure Project where
  id : String
  repoIds : List RepoId
  discourseServer : Option String
deriving DecidableEq

/-- The `ProjectGenerationOptions` record handed from `initCommand` to `init`. -/
structure ProjectGenerationOptions where
  withForce : Bool
  printToStdOut : Bool
  githubSpecs : List String
  discourseUrl : Option String

/-- The environment `init` runs in: the `SOURCECRED_GITHUB_TOKEN` value read
by `Common.githubToken()` (whose module is not among the provided sources),
and the network-backed `specToProject` resolution of a GitHub spec, which may
itself fail; both are abstracted as inputs. -/
structure InitEnv where
  githubToken : Option String
  specToProject : String → Except String (List RepoId)

/-- The observable outcome of one `init` run: the exit code, the content of
`sourcecred.json` in the working directory afterwards (`none` when absent),
and the lines written to stdout and stderr. -/
structure InitResult where
  exitCode : Nat
  fsFile : Option String
  stdout : List String
  stderr : List String

/-- `die`: writes the fatal message and a help hint to stderr, exit code 1.
The filesystem is untouched. -/
def die (fsFile : Option String) (message : String) : InitResult :=
  { exitCode := 1, fsFile := fsFile, stdout := [],
    stderr := ["fatal: " ++ message,
               "fatal: run 'sourcecred help init' for help"] }

/-- `generateProject`: fails when GitHub specs are given without a token,
otherwise resolves every spec via `specToProject`, concatenates the repo ids
and assembles the project (with the obsolete fixed id). -/
def generateProject (env : InitEnv) (githubSpecs : List String)
    (discourseUrl : Option String) : Except String Project :=
  if env.githubToken.isNone && !githubSpecs.isEmpty then
    .error "tried to load GitHub specs, but no GitHub token provided"
  else
    (githubSpecs.foldlM
        (fun acc spec => (env.specToProject spec).map (fun rs => acc ++ rs))
        ([] : List RepoId)).map
      (fun repoIds =>
        { id := "obsolete-id", repoIds := repoIds, discourseServer := discourseUrl })

/-- A deterministic stand-in for `stringify(projectToJSON(project), {space: 4})`:
the exact JSON text is irrelevant to the claims here; what matters is that a
fixed function of the project is printed or written. -/
def stringifyProject (p : Project) : String :=
  p.id ++ "|"
    ++ String.intercalate "," (p.repoIds.map (fun r => r.owner ++ "/" ++ r.name))
    ++ "|" ++ (match p.discourseServer with | some u => u | none => "")

/-- `outputProject`: prints the stringified project to stdout when
`shouldPrint`, otherwise writes it (with a trailing newline) to
`sourcecred.json`.  Returns the resulting file content and stdout lines. -/
def outputProject (project : Project) (shouldPrint : Bool)
    (fsFile : Option String) : Option String × List String :=
  let stringified := stringifyProject project
  if shouldPrint then (fsFile, [stringified])
  else (some (stringified ++ "\n"), [])

/-- The `init` function of `src/cli/init.js`: refuses to overwrite an existing
`sourcecred.json` unless `--force` or `--print` is given, then generates the
project and outputs it; any thrown error is turned into `die` (exit 1). -/
def init (env : InitEnv) (fsFile : Option String)
    (opts : ProjectGenerationOptions) : InitResult :=
  let fileAlreadyExists := fsFile.isSome
  if fileAlreadyExists && !(opts.withForce || opts.printToStdOut) then
    die fsFile "refusing to overwrite sourcecred.json without --force"
  else
    match generateProject env opts.githubSpecs opts.discourseUrl with
    | .error msg => die fsFile msg
    | .ok project =>
      let out := outputProject project opts.printToStdOut fsFile
      { exitCode := 0, fsFile := out.1, stdout := out.2, stderr := [] }

/-- C9 counterexample: with `--print` given, GitHub specs present and no token
in the environment, `init` exits 1 and prints nothing to stdout — so it is not
the case that whenever `--print` is given the project is printed. -/
theorem init_print_counterexample :
    (init ⟨none, fun _ => .ok []⟩ none
        ⟨false, true, ["sourcecred/sourcecred"], none⟩).exitCode = 1 ∧
    (init ⟨none, fun _ => .ok []⟩ none
        ⟨false, true, ["sourcecred/sourcecred"], none⟩).stdout = [] :=
  ⟨rfl, rfl⟩

/-- C9 (amended): when `sourcecred.json` already exists and neither `--force`
nor `--print` is given, `init` exits 1 and the file is unchanged (nothing is
written); whenever `--print` is given nothing is written to disk regardless of
`--force`, and when project generation succeeds the project is printed to
stdout. -/
theorem init_refuses_overwrite_and_print (env : InitEnv) (c : String)
    (opts : ProjectGenerationOptions) :
    (opts.withForce = false → opts.printToStdOut = false →
      (init env (some c) opts).exitCode = 1 ∧
      (init env (some c) opts).fsFile = some c) ∧
    (∀ fsFile, opts.printToStdOut = true →
      (init env fsFile opts).fsFile = fsFile ∧
      ∀ p, generateProject env opts.githubSpecs opts.discourseUrl = .ok p →
        (init env fsFile opts).stdout = [stringifyProject p]) := by
  constructor
  · intro hf hp
    unfold init
    simp [hf, hp, die]
  · intro fsFile hp
    unfold init
    simp only [hp, Bool.or_true, Bool.not_true, Bool.and_false]
    cases hgen : generateProject env opts.githubSpecs opts.discourseUrl with
    | error msg =>
      constructor
      · simp [die]
      · intro p hp'
        cases hp'
    | ok project =>
      constructor
      · simp [outputProject, hp]
      · intro p hp'
        cases hp'
        simp [outputProject, hp]

/-- Concrete instantiation of `init_refuses_overwrite_and_print`: an existing
file plus no flags gives exit 1 with the file intact; `--print` with empty
specs prints the generated project. -/
theorem init_refuses_overwrite_witness :
    ((init ⟨some "tok", fun _ => .ok []⟩ (some "old")
        ⟨false, false, [], none⟩).exitCode = 1 ∧
      (init ⟨some "tok", fun _ => .ok []⟩ (some "old")
        ⟨false, false, [], none⟩).fsFile = some "old") ∧
    (init ⟨some "tok", fun _ => .ok []⟩ (some "old")
        ⟨false, true, [], none⟩).stdout
      = [stringifyProject ⟨"obsolete-id", [], none⟩] :=
  ⟨(init_refuses_overwrite_and_print ⟨some "tok", fun _ => .ok []⟩ "old"
      ⟨false, false, [], none⟩).1 rfl rfl,
   ((init_refuses_overwrite_and_print ⟨some "tok", fun _ => .ok []⟩ "old"
      ⟨false, true, [], none⟩).2 (some "old") rfl).2
     ⟨"obsolete-id", [], none⟩ rfl⟩

/-! ## The cred pipeline (modelled from the spec)

The cred computation engine (`src/analysis/timeline/*`, `src/core/graph.js`,
the PageRank solver) is not among the provided sources; this section is
modelled from the spec: per-interval personalized PageRank over a
row-stochastic transition structure, scaled by the interval's total score
mass, over exact rationals. -/

/-- Modelled from the spec: one personalized-PageRank power-iteration step,
`v' = alpha * teleport + (1 - alpha) * (v · M)`. -/
def markovStep {n : ℕ} (alpha : ℚ) (teleport : Fin n → ℚ)
    (M : Fin n → Fin n → ℚ) (v : Fin n → ℚ) : Fin n → ℚ :=
  fun j => alpha * teleport j + (1 - alpha) * ∑ i, v i * M i j

/-- Modelled from the spec: the PageRank solver iterates `markovStep` up to
the iteration cap; the convergence test only chooses how many steps run, so
the invariants below hold for every iteration count. -/
def pagerank {n : ℕ} (alpha : ℚ) (teleport : Fin n → ℚ)
    (M : Fin n → Fin n → ℚ) (k : ℕ) (v0 : Fin n → ℚ) : Fin n → ℚ :=
  (markovStep alpha teleport M)^[k] v0

/-- A probability distribution: non-negative entries summing to 1. -/
def IsDist {n : ℕ} (v : Fin n → ℚ) : Prop :=
  (∀ i, 0 ≤ v i) ∧ ∑ i, v i = 1

/-- Row-stochasticity: every row of the transition structure is a
probability distribution over successors. -/
def RowStochastic {n : ℕ} (M : Fin n → Fin n → ℚ) : Prop :=
  ∀ i, (∀ j, 0 ≤ M i j) ∧ ∑ j, M i j = 1

/-- Modelled from the spec: an interval's cred scores are the solver's
distribution scaled by the interval's declared total score mass. -/
def intervalCredScores {n : ℕ} (mass alpha : ℚ) (teleport : Fin n → ℚ)
    (M : Fin n → Fin n → ℚ) (k : ℕ) (v0 : Fin n → ℚ) : Fin n → ℚ :=
  fun j => mass * pagerank alpha teleport M k v0 j

lemma markovStep_isDist {n : ℕ} {alpha : ℚ} {teleport : Fin n → ℚ}
    {M : Fin n → Fin n → ℚ} {v : Fin n → ℚ}
    (ha0 : 0 ≤ alpha) (ha1 : alpha ≤ 1) (ht : IsDist teleport)
    (hM : RowStochastic M) (hv : IsDist v) :
    IsDist (markovStep alpha teleport M v) := by
  obtain ⟨htn, hts⟩ := ht
  obtain ⟨hvn, hvs⟩ := hv
  constructor
  · intro j
    have h1 : 0 ≤ alpha * teleport j := mul_nonneg ha0 (htn j)
    have h2 : 0 ≤ ∑ i, v i * M i j :=
      Finset.sum_nonneg fun i _ => mul_nonneg (hvn i) ((hM i).1 j)
    have h3 : (0 : ℚ) ≤ 1 - alpha := by linarith
    exact add_nonneg h1 (mul_nonneg h3 h2)
  · show ∑ j, (alpha * teleport j + (1 - alpha) * ∑ i, v i * M i j) = 1
    rw [Finset.sum_add_distrib, ← Finset.mul_sum, hts, ← Finset.mul_sum,
      Finset.sum_comm]
    have hrow : ∀ i ∈ Finset.univ, ∑ j, v i * M i j = v i := by
      intro i _
      rw [← Finset.mul_sum, (hM i).2, mul_one]
    rw [Finset.sum_congr rfl hrow, hvs]
    ring

lemma pagerank_isDist {n : ℕ} {alpha : ℚ} {teleport : Fin n → ℚ}
    {M : Fin n → Fin n → ℚ} {v0 : Fin n → ℚ} (k : ℕ)
    (ha0 : 0 ≤ alpha) (ha1 : alpha ≤ 1) (ht : IsDist teleport)
    (hM : RowStochastic M) (hv0 : IsDist v0) :
    IsDist (pagerank alpha teleport M k v0) := by
  induction k with
  | zero => exact hv0
  | succ k ih =>
    unfold pagerank at ih ⊢
    rw [Function.iterate_succ_apply']
    exact markovStep_isDist ha0 ha1 ht hM ih

/-- C4: for every interval, every node's cred score is non-negative and the
scores sum exactly (the model is over exact rationals, hence within any
floating tolerance) to the interval's declared total score mass. -/
theorem interval_scores_nonneg_sum_mass {n : ℕ} (mass alpha : ℚ)
    (teleport : Fin n → ℚ) (M : Fin n → Fin n → ℚ) (k : ℕ) (v0 : Fin n → ℚ)
    (hmass : 0 ≤ mass) (ha0 : 0 ≤ alpha) (ha1 : alpha ≤ 1)
    (ht : IsDist teleport) (hM : RowStochastic M) (hv0 : IsDist v0) :
    (∀ j, 0 ≤ intervalCredScores mass alpha teleport M k v0 j) ∧
    ∑ j, intervalCredScores mass alpha teleport M k v0 j = mass := by
  obtain ⟨hpn, hps⟩ := pagerank_isDist k ha0 ha1 ht hM hv0
  constructor
  · intro j
    exact mul_nonneg hmass (hpn j)
  · unfold intervalCredScores
    rw [← Finset.mul_sum, hps, mul_one]

/-- Concrete instantiation of `interval_scores_nonneg_sum_mass` on a
single-node interval with mass 7. -/
theorem interval_scores_witness :
    (∀ j, 0 ≤ @intervalCredScores 1 7 0 (fun _ => 1) (fun _ _ => 1) 0 (fun _ => 1) j) ∧
    ∑ j, @intervalCredScores 1 7 0 (fun _ => 1) (fun _ _ => 1) 0 (fun _ => 1) j = 7 :=
  @interval_scores_nonneg_sum_mass 1 7 0 (fun _ => 1) (fun _ _ => 1) 0 (fun _ => 1)
    (by decide) (le_refl 0) (by decide)
    ⟨fun _ => zero_le_one, by simp⟩
    (fun _ => ⟨fun _ => zero_le_one, by simp⟩)
    ⟨fun _ => zero_le_one, by simp⟩

/-- Modelled from the spec: the out-transition mass of node `nd` — the sum
over the edge list of `resolveEdgeWeight(edge).forwards *
resolveNodeWeight(destination)` for edges leaving `nd`; the quantity each row
of the transition structure is normalized by. -/
def totalOutMass (edges : List GraphEdge) (w : WeightsT) (nd : Address) : ℚ :=
  ((edges.filter (fun e => e.src == nd)).map
    (fun e => (resolveEdgeWeight w.edgeWeights e.address).forwards *
      resolveNodeWeight w.nodeWeights e.dst)).sum

/-- Modelled from the spec: the deterministic score table the pipeline
derives from the graph under the given weights — one row per node, in the
graph's insertion order, each a function of edge-accumulated masses. -/
def computeCredScores (g : WeightedGraphT) (w : WeightsT) : List (Address × ℚ) :=
  g.nodes.map (fun nd => (nd.address, totalOutMass g.edges w nd.address))

/-- The error taxonomy of the cred core. -/
inductive CredError
  | invalidParameter
  | duplicateAddress
  | danglingReference
deriving DecidableEq

/-- Modelled from the spec: `compute(graph, weights, params)` validates
`alpha ∈ (0,1)` and `intervalDecay ∈ [0,1]` synchronously, before touching
the graph, and only then runs the pipeline. -/
def compute (g : WeightedGraphT) (w : WeightsT) (p : TimelineCredParameters) :
    Except CredError (List (Address × ℚ)) :=
  if ¬(0 < p.alpha ∧ p.alpha < 1) then .error .invalidParameter
  else if ¬(0 ≤ p.intervalDecay ∧ p.intervalDecay ≤ 1) then .error .invalidParameter
  else .ok (computeCredScores g w)

/-- C8: the pipeline's numeric accumulations do not depend on the iteration
order over edges: any permutation of the edge list yields the same
out-transition mass for every node, hence the same score table; with the
deterministic insertion order fixed, two invocations of `compute` on
identical inputs are definitionally equal. -/
theorem compute_deterministic (g : WeightedGraphT) (edges' : List GraphEdge)
    (w : WeightsT) (p : TimelineCredParameters) (hperm : g.edges.Perm edges') :
    (∀ nd, totalOutMass g.edges w nd = totalOutMass edges' w nd) ∧
    computeCredScores g w = computeCredScores ⟨g.nodes, edges', g.weights⟩ w ∧
    compute g w p = compute g w p := by
  have hmass : ∀ nd, totalOutMass g.edges w nd = totalOutMass edges' w nd := by
    intro nd
    unfold totalOutMass
    exact List.Perm.sum_eq (List.Perm.map _ (List.Perm.filter _ hperm))
  refine ⟨hmass, ?_, rfl⟩
  unfold computeCredScores
  exact List.map_congr_left fun nd _ => by rw [hmass nd.address]

/-- Concrete instantiation of `compute_deterministic`: swapping two edges of
a two-edge graph leaves every node's out-mass and the score table unchanged. -/
theorem compute_deterministic_witness :
    totalOutMass [⟨["e1"], ["a"], ["b"]⟩, ⟨["e2"], ["a"], ["c"]⟩] ⟨[], []⟩ ["a"]
      = totalOutMass [⟨["e2"], ["a"], ["c"]⟩, ⟨["e1"], ["a"], ["b"]⟩] ⟨[], []⟩ ["a"] :=
  (compute_deterministic
      ⟨[], [⟨["e1"], ["a"], ["b"]⟩, ⟨["e2"], ["a"], ["c"]⟩], ⟨[], []⟩⟩
      [⟨["e2"], ["a"], ["c"]⟩, ⟨["e1"], ["a"], ["b"]⟩]
      ⟨[], []⟩ ⟨1, 1⟩ (List.Perm.swap _ _ _)).1 ["a"]

/-! ## Object identity: an explicit store (C2, C3)

JavaScript objects are aliased by reference; `Store` makes references
explicit, so that "replaced, not mutated in place" and "distinct by
reference" are expressible.  A reference is an index into `cells`. -/

/-- A store of allocated objects. -/
structure Store (α : Type) where
  cells : List α

/-- Allocate a fresh object: the new store and the fresh reference. -/
def Store.alloc {α : Type} (s : Store α) (a : α) : Store α × ℕ :=
  (⟨s.cells ++ [a]⟩, s.cells.length)

/-- Dereference (`none` for an invalid reference). -/
def Store.read {α : Type} (s : Store α) (r : ℕ) : Option α :=
  s.cells[r]?

/-- In-place mutation of the object at reference `r`. -/
def Store.write {α : Type} (s : Store α) (r : ℕ) (a : α) : Store α :=
  ⟨s.cells.set r a⟩

lemma Store.read_alloc_old {α : Type} (s : Store α) (a : α) {r : ℕ}
    (h : r < s.cells.length) : (s.alloc a).1.read r = s.read r := by
  unfold alloc read
  rw [List.getElem?_append]
  simp [h]

lemma Store.read_alloc_new {α : Type} (s : Store α) (a : α) :
    (s.alloc a).1.read (s.alloc a).2 = some a := by
  unfold alloc read
  rw [List.getElem?_append_right (le_refl _)]
  simp

lemma Store.alloc_fresh {α : Type} (s : Store α) (a : α) {r : ℕ}
    (h : r < s.cells.length) : (s.alloc a).2 ≠ r := by
  unfold alloc
  omega

lemma Store.read_write_ne {α : Type} (s : Store α) (r r' : ℕ) (a : α)
    (h : r' ≠ r) : (s.write r a).read r' = s.read r' := by
  unfold write read
  exact List.getElem?_set_ne (fun hc => h hc.symm)

lemma Store.read_write_self {α : Type} (s : Store α) (r : ℕ) (a : α)
    (h : r < s.cells.length) : (s.write r a).read r = some a := by
  unfold write read
  rw [List.getElem?_set_self]
  · simp [h]

lemma Store.read_lt_length {α : Type} {s : Store α} {r : ℕ} {a : α}
    (h : s.read r = some a) : r < s.cells.length :=
  (List.getElem?_eq_some.mp h).1

/-! ## `reanalyze` and `analyzeCred` over the store (C2) -/

/-- Modelled from the spec: `reanalyze(newWeights, newParams)` recomputes the
entire pipeline from the same underlying `WeightedGraph` with the new weights
and parameters and returns a new result value: the new score table, the graph
carrying the new weights, and the new params. -/
def TimelineCred.reanalyze (tc : TimelineCred) (w : WeightsT)
    (p : TimelineCredParameters) : TimelineCred :=
  { credScores := computeCredScores { tc.graph with weights := w } w,
    graph := { tc.graph with weights := w },
    credParams := p }

/-- Modelled from the spec: the exposed `reanalyze(previousResult, newWeights,
newParams)` entry point with its failure channel explicit.  In the JS core
`reanalyze` recomputes the entire pipeline via `compute`, so it revalidates
the parameters exactly as `compute` does and rejects with the same
`InvalidParameterError`; on success it returns the fresh result object, whose
value is `TimelineCred.reanalyze` above. -/
def TimelineCred.reanalyzeChecked (tc : TimelineCred) (w : WeightsT)
    (p : TimelineCredParameters) : Except CredError TimelineCred :=
  match compute { tc.graph with weights := w } w p with
  | .error e => .error e
  | .ok scores =>
    .ok { credScores := scores,
          graph := { tc.graph with weights := w },
          credParams := p }

lemma reanalyzeChecked_eq_ok (tc : TimelineCred) (w : WeightsT)
    (p : TimelineCredParameters) (h1 : 0 < p.alpha ∧ p.alpha < 1)
    (h2 : 0 ≤ p.intervalDecay ∧ p.intervalDecay ≤ 1) :
    tc.reanalyzeChecked w p = .ok (tc.reanalyze w p) := by
  unfold TimelineCred.reanalyzeChecked compute
  rw [if_neg (not_not_intro h1), if_neg (not_not_intro h2)]
  rfl

/-- C7: with `alpha` outside `(0,1)` or `intervalDecay` outside `[0,1]`, both
`compute` and the `reanalyze` entry point fail with `InvalidParameterError`,
and the outcome is identical for every graph and for every previous result —
validation happens synchronously before any computation touches the graph or
the previous result, so no partial computation is performed, no state is
changed and no partial result exists. -/
theorem compute_reanalyze_invalid_parameter (w : WeightsT)
    (p : TimelineCredParameters)
    (h : ¬(0 < p.alpha ∧ p.alpha < 1) ∨ ¬(0 ≤ p.intervalDecay ∧ p.intervalDecay ≤ 1)) :
    ∀ (g g' : WeightedGraphT) (tc tc' : TimelineCred),
      compute g w p = .error .invalidParameter ∧
      compute g w p = compute g' w p ∧
      tc.reanalyzeChecked w p = .error .invalidParameter ∧
      tc.reanalyzeChecked w p = tc'.reanalyzeChecked w p := by
  have hc : ∀ g : WeightedGraphT, compute g w p = .error .invalidParameter := by
    intro g
    unfold compute
    by_cases h1 : ¬(0 < p.alpha ∧ p.alpha < 1)
    · simp [h1]
    · rcases h with h | h
      · exact absurd h1 (not_not_intro h)
      · simp [h1, h]
  have hr : ∀ t : TimelineCred, t.reanalyzeChecked w p = .error .invalidParameter := by
    intro t
    unfold TimelineCred.reanalyzeChecked
    rw [hc]
  intro g g' tc tc'
  exact ⟨hc g, by rw [hc g, hc g'], hr tc, by rw [hr tc, hr tc']⟩

/-- Concrete instantiation of `compute_reanalyze_invalid_parameter`:
`alpha = 2` makes `compute` fail on the empty graph and `reanalyze` fail on a
held result. -/
theorem compute_reanalyze_invalid_parameter_witness :
    compute ⟨[], [], ⟨[], []⟩⟩ ⟨[], []⟩ ⟨2, 0⟩ = .error .invalidParameter ∧
    TimelineCred.reanalyzeChecked ⟨[], ⟨[], [], ⟨[], []⟩⟩, ⟨1, 0⟩⟩ ⟨[], []⟩ ⟨2, 0⟩
      = .error .invalidParameter :=
  ⟨(compute_reanalyze_invalid_parameter ⟨[], []⟩ ⟨2, 0⟩ (Or.inl (by decide))
      ⟨[], [], ⟨[], []⟩⟩ ⟨[], [], ⟨[], []⟩⟩
      ⟨[], ⟨[], [], ⟨[], []⟩⟩, ⟨1, 0⟩⟩ ⟨[], ⟨[], [], ⟨[], []⟩⟩, ⟨1, 0⟩⟩).1,
   (compute_reanalyze_invalid_parameter ⟨[], []⟩ ⟨2, 0⟩ (Or.inl (by decide))
      ⟨[], [], ⟨[], []⟩⟩ ⟨[], [], ⟨[], []⟩⟩
      ⟨[], ⟨[], [], ⟨[], []⟩⟩, ⟨1, 0⟩⟩ ⟨[], ⟨[], [], ⟨[], []⟩⟩, ⟨1, 0⟩⟩).2.2.1⟩

/-- The explorer's state with object identity explicit: all `TimelineCred`
results live in a store, and the component state holds a reference to the
currently held one. -/
structure ExplorerRefState where
  credStore : Store TimelineCred
  timelineCredRef : ℕ
  weights : WeightsT
  alpha : ℚ
  intervalDecay : ℚ
  loading : Bool

/-- `analyzeCred()`: awaits `this.state.timelineCred.reanalyze(this.weights(),
this.params())` and then replaces the held reference wholesale
(`this.setState({timelineCred, loading: false})`); the new result is a fresh
allocation, no existing cell is written. -/
def analyzeCred (s : ExplorerRefState) : ExplorerRefState :=
  match s.credStore.read s.timelineCredRef with
  | none => s
  | some tc =>
    let a := s.credStore.alloc (tc.reanalyze s.weights ⟨s.alpha, s.intervalDecay⟩)
    { s with credStore := a.1, timelineCredRef := a.2, loading := false }

/-- C2: a successful `analyzeCred` replaces the held `TimelineCred` wholesale
by a freshly allocated result — the new reference differs from the old — and
the data of every previously returned result (score table, weights, params)
is unchanged by the call: every reference valid before still dereferences to
the very same value. -/
theorem reanalyze_never_mutates (s : ExplorerRefState) (tc : TimelineCred)
    (hheld : s.credStore.read s.timelineCredRef = some tc) :
    (∀ r, r < s.credStore.cells.length →
      (analyzeCred s).credStore.read r = s.credStore.read r) ∧
    (analyzeCred s).timelineCredRef ≠ s.timelineCredRef ∧
    (analyzeCred s).credStore.read (analyzeCred s).timelineCredRef =
      some (tc.reanalyze s.weights ⟨s.alpha, s.intervalDecay⟩) := by
  have hlt : s.timelineCredRef < s.credStore.cells.length :=
    Store.read_lt_length hheld
  unfold analyzeCred
  rw [hheld]
  dsimp only
  refine ⟨?_, ?_, ?_⟩
  · intro r hr
    exact Store.read_alloc_old s.credStore _ hr
  · exact Store.alloc_fresh s.credStore _ hlt
  · exact Store.read_alloc_new s.credStore _

/-- Concrete instantiation of `reanalyze_never_mutates` on a one-result
store. -/
theorem reanalyze_never_mutates_witness :
    (analyzeCred
        { credStore := ⟨[⟨[], ⟨[], [], ⟨[], []⟩⟩, ⟨1, 0⟩⟩]⟩,
          timelineCredRef := 0, weights := ⟨[], []⟩,
          alpha := 1, intervalDecay := 0, loading := false }).credStore.read 0 =
      some ⟨[], ⟨[], [], ⟨[], []⟩⟩, ⟨1, 0⟩⟩ :=
  (reanalyze_never_mutates
      { credStore := ⟨[⟨[], ⟨[], [], ⟨[], []⟩⟩, ⟨1, 0⟩⟩]⟩,
        timelineCredRef := 0, weights := ⟨[], []⟩,
        alpha := 1, intervalDecay := 0, loading := false }
      ⟨[], ⟨[], [], ⟨[], []⟩⟩, ⟨1, 0⟩⟩ rfl).1 0 (by decide)

/-! ## Defensive copying of weights (C3) -/

/-- The weights-ownership model: the caller-held mutable weights object and
its copies live in a store; the state holds a reference to the caller's
object. -/
structure WeightsRefState where
  weightsStore : Store WeightsT
  weightsRef : ℕ

/-- Modelled from the spec: `Weights.copy` (`src/core/weights.js` is not
among the provided sources) returns a fresh deep copy — a newly allocated
object, structurally equal to its source, under a distinct reference. -/
def weightsCopy (s : Store WeightsT) (w : WeightsT) : Store WeightsT × ℕ :=
  s.alloc w

/-- The `weights()` method over the reference model:
`Weights.copy(this.state.weights)` — dereference, then copy. -/
def weightsMethodRef (st : WeightsRefState) : Option (Store WeightsT × ℕ) :=
  (st.weightsStore.read st.weightsRef).map (weightsCopy st.weightsStore)

/-- `onNodeWeightChange(prefix, weight)`: mutates the state-held weights
object in place — `weights.nodeWeights.set(prefix, weight)` followed by
`setState` with the same object. -/
def onNodeWeightChange (st : WeightsRefState) (pfx : Address) (weight : ℚ) :
    WeightsRefState :=
  match st.weightsStore.read st.weightsRef with
  | none => st
  | some w =>
    { st with
      weightsStore :=
        st.weightsStore.write st.weightsRef ⟨(pfx, weight) :: w.nodeWeights, w.edgeWeights⟩ }

/-- C3: the weights entering a computation are defensively copied — the copy
produced by `weights()` has a reference distinct from the caller-held object
but identical content, and a later in-place `onNodeWeightChange` mutation of
the caller-held weights changes the held object yet leaves the copy (the
inputs of the already-launched computation, and hence the weights stored in
its result) unchanged. -/
theorem weights_defensively_copied (st : WeightsRefState) (w : WeightsT)
    (hread : st.weightsStore.read st.weightsRef = some w)
    (pfx : Address) (q : ℚ) :
    ∀ s' c, weightsMethodRef st = some (s', c) →
      c ≠ st.weightsRef ∧
      s'.read c = some w ∧
      (onNodeWeightChange { st with weightsStore := s' } pfx q).weightsStore.read c
        = some w ∧
      (onNodeWeightChange { st with weightsStore := s' } pfx q).weightsStore.read
          st.weightsRef
        = some ⟨(pfx, q) :: w.nodeWeights, w.edgeWeights⟩ := by
  intro s' c hmc
  have hlt : st.weightsRef < st.weightsStore.cells.length :=
    Store.read_lt_length hread
  unfold weightsMethodRef at hmc
  rw [hread] at hmc
  simp only [Option.map_some'] at hmc
  unfold weightsCopy at hmc
  have hs' : s' = (st.weightsStore.alloc w).1 := (congrArg Prod.fst (Option.some.inj hmc)).symm
  have hc : c = (st.weightsStore.alloc w).2 := (congrArg Prod.snd (Option.some.inj hmc)).symm
  subst hs' hc
  have hfresh : (st.weightsStore.alloc w).2 ≠ st.weightsRef :=
    Store.alloc_fresh st.weightsStore w hlt
  have hcopy : (st.weightsStore.alloc w).1.read (st.weightsStore.alloc w).2 = some w :=
    Store.read_alloc_new st.weightsStore w
  have hold : (st.weightsStore.alloc w).1.read st.weightsRef = some w := by
    rw [Store.read_alloc_old st.weightsStore w hlt]
    exact hread
  refine ⟨hfresh, hcopy, ?_, ?_⟩
  · unfold onNodeWeightChange
    simp only [hold]
    rw [Store.read_write_ne _ _ _ _ hfresh]
    exact hcopy
  · unfold onNodeWeightChange
    simp only [hold]
    apply Store.read_write_self
    unfold Store.alloc
    simp only [List.length_append, List.length_cons, List.length_nil]
    omega

/-- Concrete instantiation of `weights_defensively_copied` on a one-object
store: the copy lands at reference 1 and survives the mutation at 0. -/
theorem weights_defensively_copied_witness :
    (onNodeWeightChange
        { weightsStore := (weightsCopy ⟨[⟨[], []⟩]⟩ ⟨[], []⟩).1, weightsRef := 0 }
        ["github"] 5).weightsStore.read 1 = some ⟨[], []⟩ :=
  ((weights_defensively_copied ⟨⟨[⟨[], []⟩]⟩, 0⟩ ⟨[], []⟩ rfl ["github"] 5
      (weightsCopy ⟨[⟨[], []⟩]⟩ ⟨[], []⟩).1 1 rfl).2).2.1

/-! ## Interval partitioning (modelled from the spec, C6)

The `IntervalPartitioner` (`src/analysis/timeline/interval.js`) is not among
the provided sources; modelled from the spec: uniform-width, half-open
intervals, the first interval's start aligned to a canonical epoch boundary
(the greatest multiple of the width not exceeding the minimum timestamp),
covering the whole timestamped range. -/

/-- A half-open time interval `[startTimeMs, endTimeMs)`. -/
structure TimeInterval where
  startTimeMs : ℤ
  endTimeMs : ℤ
deriving DecidableEq

/-- Modelled from the spec: the epoch-aligned start — the greatest multiple
of the interval width `w` not exceeding the minimum timestamp. -/
def alignedStart (w minT : ℤ) : ℤ := w * (minT / w)

/-- Modelled from the spec: the number of width-`w` intervals covering
`[minT, maxT]` from the aligned start. -/
def intervalCount (w minT maxT : ℤ) : ℕ :=
  ((maxT - alignedStart w minT) / w + 1).toNat

/-- Modelled from the spec: the `IntervalPartitioner` — the ordered sequence
of uniform-width, epoch-aligned, half-open intervals covering the range of
the graph's timestamped nodes. -/
def intervalSequence (w minT maxT : ℤ) : List TimeInterval :=
  (List.range (intervalCount w minT maxT)).map
    (fun (i : ℕ) =>
      ⟨alignedStart w minT + (i : ℤ) * w, alignedStart w minT + ((i : ℤ) + 1) * w⟩)

lemma intervalSequence_length (w minT maxT : ℤ) :
    (intervalSequence w minT maxT).length = intervalCount w minT maxT := by
  unfold intervalSequence
  rw [List.length_map, List.length_range]

lemma intervalSequence_get (w minT maxT : ℤ) (i : ℕ)
    (h : i < (intervalSequence w minT maxT).length) :
    (intervalSequence w minT maxT).get ⟨i, h⟩ =
      ⟨alignedStart w minT + (i : ℤ) * w,
        alignedStart w minT + ((i : ℤ) + 1) * w⟩ := by
  unfold intervalSequence
  rw [List.get_eq_getElem, List.getElem_map, List.getElem_range]

lemma alignedStart_le (w minT : ℤ) (hw : 0 < w) :
    alignedStart w minT ≤ minT ∧ minT < alignedStart w minT + w := by
  have hmod := Int.ediv_add_emod minT w
  have h0 : 0 ≤ minT % w := Int.emod_nonneg minT (ne_of_gt hw)
  have h1 : minT % w < w := Int.emod_lt_of_pos minT hw
  unfold alignedStart
  constructor <;> linarith

lemma interval_index_mem (w s0 t : ℤ) (hw : 0 < w) :
    s0 + ((t - s0) / w) * w ≤ t ∧ t < s0 + ((t - s0) / w + 1) * w := by
  have hmod := Int.ediv_add_emod (t - s0) w
  have h0 : 0 ≤ (t - s0) % w := Int.emod_nonneg _ (ne_of_gt hw)
  have h1 : (t - s0) % w < w := Int.emod_lt_of_pos _ hw
  constructor <;> linarith

lemma interval_index_unique (w s0 t : ℤ) (hw : 0 < w) (j : ℤ)
    (h1 : s0 + j * w ≤ t) (h2 : t < s0 + (j + 1) * w) :
    j = (t - s0) / w := by
  have hj1 : j ≤ (t - s0) / w := (Int.le_ediv_iff_mul_le hw).mpr (by linarith)
  have hj2 : (t - s0) / w < j + 1 := (Int.ediv_lt_iff_lt_mul hw).mpr (by linarith)
  exact le_antisymm hj1 (Int.lt_add_one_iff.mp hj2)

/-- C6: for a graph with timestamped nodes spanning `[minT, maxT]`, the
produced interval sequence is non-empty, every interval is half-open with
positive extent, consecutive intervals are contiguous (no gaps), any two
distinct intervals are non-overlapping (the sequence is ascending), every
time in `[minT, maxT]` lies in exactly one interval, and the first/last
intervals contain `minT`/`maxT` — so the union exactly covers the range. -/
theorem intervalSequence_partition (w minT maxT : ℤ) (hw : 0 < w)
    (hle : minT ≤ maxT) :
    0 < (intervalSequence w minT maxT).length ∧
    (∀ i (hi : i < (intervalSequence w minT maxT).length),
      ((intervalSequence w minT maxT).get ⟨i, hi⟩).startTimeMs
        < ((intervalSequence w minT maxT).get ⟨i, hi⟩).endTimeMs) ∧
    (∀ i (hi : i + 1 < (intervalSequence w minT maxT).length),
      ((intervalSequence w minT maxT).get ⟨i, Nat.lt_of_succ_lt hi⟩).endTimeMs
        = ((intervalSequence w minT maxT).get ⟨i + 1, hi⟩).startTimeMs) ∧
    (∀ i j (hi : i < (intervalSequence w minT maxT).length)
        (hj : j < (intervalSequence w minT maxT).length), i < j →
      ((intervalSequence w minT maxT).get ⟨i, hi⟩).endTimeMs
        ≤ ((intervalSequence w minT maxT).get ⟨j, hj⟩).startTimeMs) ∧
    (∀ t : ℤ, minT ≤ t → t ≤ maxT →
      ∃ i, ∃ hi : i < (intervalSequence w minT maxT).length,
        (((intervalSequence w minT maxT).get ⟨i, hi⟩).startTimeMs ≤ t ∧
          t < ((intervalSequence w minT maxT).get ⟨i, hi⟩).endTimeMs) ∧
        ∀ j (hj : j < (intervalSequence w minT maxT).length),
          ((intervalSequence w minT maxT).get ⟨j, hj⟩).startTimeMs ≤ t →
          t < ((intervalSequence w minT maxT).get ⟨j, hj⟩).endTimeMs → j = i) ∧
    (∀ iv, (intervalSequence w minT maxT).head? = some iv →
      iv.startTimeMs ≤ minT ∧ minT < iv.endTimeMs) ∧
    (∀ iv, (intervalSequence w minT maxT).getLast? = some iv →
      iv.startTimeMs ≤ maxT ∧ maxT < iv.endTimeMs) := by
  have hs0 := alignedStart_le w minT hw
  have hsmax : alignedStart w minT ≤ maxT := le_trans hs0.1 hle
  obtain ⟨q, hq0, hNq, hqle, hqgt, hqmono⟩ :
      ∃ q : ℤ, 0 ≤ q ∧ (intervalCount w minT maxT : ℤ) = q + 1 ∧
        alignedStart w minT + q * w ≤ maxT ∧
        maxT < alignedStart w minT + (q + 1) * w ∧
        ∀ t : ℤ, t ≤ maxT → (t - alignedStart w minT) / w ≤ q := by
    have hq0' : 0 ≤ (maxT - alignedStart w minT) / w :=
      Int.ediv_nonneg (by linarith) (le_of_lt hw)
    have hmem := interval_index_mem w (alignedStart w minT) maxT hw
    refine ⟨(maxT - alignedStart w minT) / w, hq0', ?_, hmem.1, hmem.2, ?_⟩
    · unfold intervalCount
      rw [Int.toNat_of_nonneg (by linarith)]
    · intro t ht
      exact Int.ediv_le_ediv hw (by linarith)
  have hlen : (intervalSequence w minT maxT).length = intervalCount w minT maxT :=
    intervalSequence_length w minT maxT
  have hlen0 : 0 < (intervalSequence w minT maxT).length := by
    rw [hlen]
    omega
  refine ⟨hlen0, ?_, ?_, ?_, ?_, ?_, ?_⟩
  · intro i hi
    rw [intervalSequence_get]
    show alignedStart w minT + (i : ℤ) * w
      < alignedStart w minT + ((i : ℤ) + 1) * w
    have : (0 : ℤ) * w < 1 * w := by linarith
    nlinarith
  · intro i hi
    rw [intervalSequence_get, intervalSequence_get]
    show alignedStart w minT + ((i : ℤ) + 1) * w
      = alignedStart w minT + (((i + 1 : ℕ) : ℤ)) * w
    push_cast
    ring
  · intro i j hi hj hij
    rw [intervalSequence_get, intervalSequence_get]
    show alignedStart w minT + ((i : ℤ) + 1) * w
      ≤ alignedStart w minT + (j : ℤ) * w
    have hcast : (i : ℤ) + 1 ≤ (j : ℤ) := by exact_mod_cast hij
    have := mul_le_mul_of_nonneg_right hcast (le_of_lt hw)
    linarith
  · intro t htmin htmax
    have hst : alignedStart w minT ≤ t := le_trans hs0.1 htmin
    have hd0 : 0 ≤ (t - alignedStart w minT) / w :=
      Int.ediv_nonneg (by linarith) (le_of_lt hw)
    have hdmem := interval_index_mem w (alignedStart w minT) t hw
    have hdq : (t - alignedStart w minT) / w ≤ q := hqmono t htmax
    have hcasti : (((t - alignedStart w minT) / w).toNat : ℤ)
        = (t - alignedStart w minT) / w := Int.toNat_of_nonneg hd0
    have hiz : (((t - alignedStart w minT) / w).toNat : ℤ) ≤ q := by
      rw [hcasti]
      exact hdq
    have hiN : ((t - alignedStart w minT) / w).toNat
        < (intervalSequence w minT maxT).length := by
      rw [hlen]
      omega
    refine ⟨((t - alignedStart w minT) / w).toNat, hiN, ⟨?_, ?_⟩, ?_⟩
    · rw [intervalSequence_get]
      show alignedStart w minT
        + ((((t - alignedStart w minT) / w).toNat : ℤ)) * w ≤ t
      rw [hcasti]
      exact hdmem.1
    · rw [intervalSequence_get]
      show t < alignedStart w minT
        + ((((t - alignedStart w minT) / w).toNat : ℤ) + 1) * w
      rw [hcasti]
      exact hdmem.2
    · intro j hj hjs hje
      rw [intervalSequence_get] at hjs hje
      have hjs' : alignedStart w minT + (j : ℤ) * w ≤ t := hjs
      have hje' : t < alignedStart w minT + ((j : ℤ) + 1) * w := hje
      have hj' : (j : ℤ) = (t - alignedStart w minT) / w :=
        interval_index_unique w (alignedStart w minT) t hw (j : ℤ) hjs' hje'
      have : (j : ℤ) = (((t - alignedStart w minT) / w).toNat : ℤ) := by
        rw [hcasti]
        exact hj'
      exact_mod_cast this
  · intro iv hiv
    rw [List.head?_eq_getElem? _, List.getElem?_eq_getElem hlen0] at hiv
    have hiv' : (intervalSequence w minT maxT)[0] = iv := Option.some.inj hiv
    subst hiv'
    have hget := intervalSequence_get w minT maxT 0 hlen0
    rw [List.get_eq_getElem] at hget
    rw [hget]
    constructor
    · show alignedStart w minT + ((0 : ℕ) : ℤ) * w ≤ minT
      push_cast
      linarith [hs0.1]
    · show minT < alignedStart w minT + (((0 : ℕ) : ℤ) + 1) * w
      push_cast
      linarith [hs0.2]
  · intro iv hiv
    have hlast : (intervalSequence w minT maxT).length - 1
        < (intervalSequence w minT maxT).length := by omega
    rw [List.getLast?_eq_getElem? _, List.getElem?_eq_getElem hlast] at hiv
    have hiv' : (intervalSequence w minT maxT)[
        (intervalSequence w minT maxT).length - 1] = iv := Option.some.inj hiv
    subst hiv'
    have hget := intervalSequence_get w minT maxT
      ((intervalSequence w minT maxT).length - 1) hlast
    rw [List.get_eq_getElem] at hget
    rw [hget]
    have hcastl : ((((intervalSequence w minT maxT).length - 1 : ℕ)) : ℤ) = q := by
      rw [hlen]
      omega
    constructor
    · show alignedStart w minT
        + ((((intervalSequence w minT maxT).length - 1 : ℕ)) : ℤ) * w ≤ maxT
      rw [hcastl]
      exact hqle
    · show maxT < alignedStart w minT
        + (((((intervalSequence w minT maxT).length - 1 : ℕ)) : ℤ) + 1) * w
      rw [hcastl]
      exact hqgt

/-- Concrete instantiation of `intervalSequence_partition` at width 7 over
`[10, 30]`: the sequence is non-empty and its first interval contains 10. -/
theorem intervalSequence_partition_witness :
    0 < (intervalSequence 7 10 30).length ∧
    (∀ iv, (intervalSequence 7 10 30).head? = some iv →
      iv.startTimeMs ≤ 10 ∧ 10 < iv.endTimeMs) :=
  ⟨(intervalSequence_partition 7 10 30 (by decide) (by decide)).1,
   (intervalSequence_partition 7 10 30 (by decide) (by decide)).2.2.2.2.2.1⟩
